import Mathlib

/-
  Verification of the negative-binomial HDP Gibbs sampler
  (nbinom_HDP.py, class NBinomModel).

  Embedding conventions:
  * numpy arrays become functions out of `Fin`; machine floats carrying
    structural information (cluster effects, thresholds, weights) become
    exact rationals, and the likelihood layer (which only feeds the
    Metropolis comparisons) is treated over the reals in a second layer
    below.
  * every random draw of the program (rn.normal, rn.choice, rn.rand and
    the samplers imported from dgeclust.stats, which are not part of the
    sources) is an input supplied by an explicit oracle structure; the
    boolean outcome of each Metropolis comparison
    (loglik_ > loglik or rand() < exp(loglik_ - loglik), lines 190, 202,
    236, 354 and 371 of the source) is likewise an oracle input in the
    structural layer, so every theorem below holds for every possible
    outcome of those comparisons.  The comparison itself is embedded
    faithfully in the real-valued layer (defs _compute_loglik, phiAccept,
    muAccept).
  * the in-place numpy writes of _update_group_vars (d[idxs] = d_[idxs],
    c[idxs] = c_[idxs], c[~iact] = c_[~iact]) are modelled by an explicit
    caller-visible store `GroupState`: the function returns both the
    final contents of that store and its python return tuple.
-/

open Finset

/-- Model state of `NBinomModel` (construction lines 21-71 of the source):
`G` groups, `F` features, `K` = outer truncation `ntrunc[0]`,
`L` = inner truncation `ntrunc[1]`. Field names follow the source. -/
structure NBinomModel (G F K L : ℕ) where
  iter : ℕ
  mu1 : ℚ
  tau1 : ℚ
  mu2 : ℚ
  tau2 : ℚ
  m0 : ℚ
  t0 : ℚ
  log_phi : Fin F → ℚ
  log_mu : Fin F → ℚ
  eta : ℚ
  zeta : Fin G → ℚ
  lw : Fin K → ℚ
  lu : Fin G → Fin L → ℚ
  beta : Fin K → ℚ
  c : Fin G → Fin L → Fin K
  d : Fin G → Fin F → Fin L
  z : Fin G → Fin F → Fin K
  thr : ℚ
  occ : Fin K → ℕ
  iact : Fin K → Bool
  nact : ℕ

/-- Scalar constructor arguments of `NBinomModel.__init__`: `init_hpars`
gives `(m0, t0)`; `mu1, tau1, mu2, tau2` are computed by the source from
float logs of the count data (lines 33-37) and are taken here as given
rationals; `eta0, zeta0, lw0, lu0` are the values `log ntrunc[0]`,
`log ntrunc[1]`, `-log ntrunc[0]`, `-log ntrunc[1]` (lines 46-51), again
taken as given rationals since no claim depends on their numeric value. -/
structure InitParams where
  mu1 : ℚ
  tau1 : ℚ
  mu2 : ℚ
  tau2 : ℚ
  m0 : ℚ
  t0 : ℚ
  eta0 : ℚ
  zeta0 : ℚ
  lw0 : ℚ
  lu0 : ℚ
  thr : ℚ

/-- The random draws consumed by `NBinomModel.__init__`:
`log_phi`, `log_mu` are the rn.normal draws of lines 42-43, `betaDraw`
the rn.normal draws of line 54 (used only for indices above 0),
`cDraw`/`dDraw` the rn.choice draws of lines 57-58. -/
structure InitOracle (G F K L : ℕ) where
  log_phi : Fin F → ℚ
  log_mu : Fin F → ℚ
  betaDraw : Fin K → ℚ
  cDraw : Fin G → Fin L → Fin K
  dDraw : Fin G → Fin F → Fin L

/-- Random inputs of one `_update_group_vars` call:
`dProp` is the rn.choice proposal of line 349, `dAcc` the per-feature
outcome of the Metropolis comparison of line 354, `cProp` the rn.choice
proposal of line 362, `cAcc` the per-slot outcome of the comparison of
line 371.  `etaWest` and `stick` model `st.sample_eta_west` and
`st.sample_stick` (dgeclust.stats, not under the sources): each is an
arbitrary function of exactly the arguments the source passes. -/
structure GroupOracle (F K L : ℕ) where
  dProp : Fin F → Fin L
  dAcc : Fin F → Bool
  cProp : Fin L → Fin K
  cAcc : Fin L → Bool
  etaWest : ℚ → ℕ → ℕ → ℚ
  stick : (Fin L → ℕ) → ℚ → Fin L → ℚ

/-- Random inputs of one sweep of `NBinomModel.update`:
proposals and Metropolis outcomes for `_update_phi` (lines 185, 190),
`_update_mu` (lines 197, 202), `_update_beta` (lines 224, 236), one
`GroupOracle` per group, and the external samplers
`st.sample_eta_west` (line 173), `st.sample_stick` (line 176) and
`st.sample_normal_mean_prec_jeffreys` (lines 250, 255, 262; modelled as
three independent draws `jphi`, `jmu`, `jbeta`, each a function of
exactly the sufficient statistics the source passes). -/
structure SweepOracle (G F K L : ℕ) where
  phiProp : Fin F → ℚ
  phiAcc : Fin F → Bool
  muProp : Fin F → ℚ
  muAcc : Fin F → Bool
  betaProp : Fin K → ℚ
  betaAcc : Fin K → Bool
  grp : Fin G → GroupOracle F K L
  etaWest : ℚ → ℕ → ℕ → ℚ
  stick : (Fin K → ℕ) → ℚ → Fin K → ℚ
  jphi : ℚ → ℚ → ℕ → ℚ × ℚ
  jmu : ℚ → ℚ → ℕ → ℚ × ℚ
  jbeta : ℚ → ℚ → ℕ → ℚ × ℚ

/-- The caller-visible store of one `_update_group_vars` call: the rows
`self.c[g]`, `self.d[g]`, `self.lu[g]` and the cell `self.zeta[g]` that
the orchestrator passes for group `g` (line 158).  numpy fancy-index
assignment writes through these references. -/
structure GroupState (F K L : ℕ) where
  c : Fin L → Fin K
  d : Fin F → Fin L
  lu : Fin L → ℚ
  zeta : ℚ

/-- The python return tuple `(c, d, c[d], lu, zeta)` of
`_update_group_vars` (line 382). -/
structure GroupResult (F K L : ℕ) where
  c : Fin L → Fin K
  d : Fin F → Fin L
  z : Fin F → Fin K
  lu : Fin L → ℚ
  zeta : ℚ

/-- `_update_group_vars` (source lines 341-382).  Returns the final
contents of the caller-visible store together with the return tuple:
* line 355 `d[idxs] = d_[idxs]` is the in-place update giving `d1`;
* lines 357-359 recompute the inner occupancy, activity and `kact`;
* line 363 pins the proposal `c_[0] = 0`;
* lines 372-373 `c[idxs] = c_[idxs]; c[~iact] = c_[~iact]` give `c1`
  (a slot is overwritten when accepted or inactive);
* lines 376-382 rebind `zeta` and `lu` locally (no in-place write) and
  return `(c, d, c[d], lu, zeta)`.
The likelihood computations of lines 351-352 and 365-369 enter only
through the Metropolis outcomes `o.dAcc`, `o.cAcc`. -/
def _update_group_vars {F K L : ℕ} [NeZero K] (gs : GroupState F K L)
    (o : GroupOracle F K L) : GroupState F K L × GroupResult F K L :=
  let d1 : Fin F → Fin L := fun f => if o.dAcc f then o.dProp f else gs.d f
  let occI : Fin L → ℕ := fun l => (univ.filter (fun f : Fin F => d1 f = l)).card
  let iactI : Fin L → Bool := fun l => decide (0 < occI l)
  let kact : ℕ := (univ.filter (fun l : Fin L => 0 < occI l)).card
  let cP : Fin L → Fin K := fun l => if l.val = 0 then 0 else o.cProp l
  let c1 : Fin L → Fin K := fun l => if o.cAcc l || !(iactI l) then cP l else gs.c l
  let zeta1 : ℚ := o.etaWest gs.zeta kact (∑ l : Fin L, occI l)
  let lu1 : Fin L → ℚ := o.stick occI zeta1
  (⟨c1, d1, gs.lu, gs.zeta⟩, ⟨c1, d1, fun f => c1 (d1 f), lu1, zeta1⟩)

/-- `NBinomModel.__init__` (source lines 21-71):
* line 54: `beta = np.r_[0, rn.normal(...)]`;
* lines 57-62: indicator draws, then `c[0,:] = 0`, `d[0,:] = 0`,
  `c[:,0] = 0`;
* line 64: `z = c[d]` rowwise;
* line 66: threshold snap `z[np.abs(beta[z]) < thr] = 0`;
* lines 69-71: occupancy of `z[1:]`, activity mask, active count. -/
def NBinomModel.init {G F K L : ℕ} [NeZero K] [NeZero L] (p : InitParams)
    (o : InitOracle G F K L) : NBinomModel G F K L :=
  let beta0 : Fin K → ℚ := fun k => if k.val = 0 then 0 else o.betaDraw k
  let c0 : Fin G → Fin L → Fin K :=
    fun g l => if g.val = 0 ∨ l.val = 0 then 0 else o.cDraw g l
  let d0 : Fin G → Fin F → Fin L := fun g f => if g.val = 0 then 0 else o.dDraw g f
  let z0 : Fin G → Fin F → Fin K :=
    fun g f => if |beta0 (c0 g (d0 g f))| < p.thr then 0 else c0 g (d0 g f)
  let occ0 : Fin K → ℕ :=
    fun k => (univ.filter (fun q : Fin G × Fin F => q.1.val ≠ 0 ∧ z0 q.1 q.2 = k)).card
  { iter := 0
    mu1 := p.mu1, tau1 := p.tau1, mu2 := p.mu2, tau2 := p.tau2
    m0 := p.m0, t0 := p.t0
    log_phi := o.log_phi, log_mu := o.log_mu
    eta := p.eta0, zeta := fun _ => p.zeta0
    lw := fun _ => p.lw0, lu := fun _ _ => p.lu0
    beta := beta0, c := c0, d := d0, z := z0, thr := p.thr
    occ := occ0
    iact := fun k => decide (0 < occ0 k)
    nact := (univ.filter (fun k : Fin K => 0 < occ0 k)).card }

/-- `_update_phi` (source lines 182-191): per-feature Metropolis move on
`log_phi`; the comparison of line 190 enters through `o.phiAcc`. -/
def _update_phi {G F K L : ℕ} (s : NBinomModel G F K L) (o : SweepOracle G F K L) :
    NBinomModel G F K L :=
  { s with log_phi := fun f => if o.phiAcc f then o.phiProp f else s.log_phi f }

/-- `_update_mu` (source lines 194-203): per-feature Metropolis move on
`log_mu`; the comparison of line 202 enters through `o.muAcc`. -/
def _update_mu {G F K L : ℕ} (s : NBinomModel G F K L) (o : SweepOracle G F K L) :
    NBinomModel G F K L :=
  { s with log_mu := fun f => if o.muAcc f then o.muProp f else s.log_mu f }

/-- `_update_beta` (source lines 220-240):
line 224 pins the proposal at index 0 (`beta_ = np.r_[0, rn.normal(...)]`);
line 237 `beta[idxs] = beta_[idxs]` accepts per cluster (outcome
`o.betaAcc`); line 240 `beta[~iact] = beta_[~iact]` force-accepts every
cluster inactive at the time of the call (the cached `self.iact`). -/
def _update_beta {G F K L : ℕ} (s : NBinomModel G F K L) (o : SweepOracle G F K L) :
    NBinomModel G F K L :=
  { s with beta := fun k =>
      if o.betaAcc k || !(s.iact k) then (if k.val = 0 then 0 else o.betaProp k)
      else s.beta k }

/-- The argument tuple the orchestrator builds for group `g`
(line 158: `zip(self.c[1:], self.d[1:], self.lu[1:], self.zeta[1:], ...)`). -/
def groupArgs {G F K L : ℕ} (s : NBinomModel G F K L) (g : Fin G) : GroupState F K L :=
  ⟨s.c g, s.d g, s.lu g, s.zeta g⟩

/-- Lines 152-163 of `update`: dispatch `_update_group_vars` to every
group of index at least 1 (sequentially or through the pool; either way
the rows `c[1:], d[1:], z[1:], lu[1:], zeta[1:]` are assigned from the
returned tuples) and leave row 0 untouched. -/
def updateGroups {G F K L : ℕ} [NeZero K] (s : NBinomModel G F K L)
    (o : SweepOracle G F K L) : NBinomModel G F K L :=
  { s with
    c := fun g => if g.val = 0 then s.c g else
      (_update_group_vars (groupArgs s g) (o.grp g)).2.c
    d := fun g => if g.val = 0 then s.d g else
      (_update_group_vars (groupArgs s g) (o.grp g)).2.d
    z := fun g => if g.val = 0 then s.z g else
      (_update_group_vars (groupArgs s g) (o.grp g)).2.z
    lu := fun g => if g.val = 0 then s.lu g else
      (_update_group_vars (groupArgs s g) (o.grp g)).2.lu
    zeta := fun g => if g.val = 0 then s.zeta g else
      (_update_group_vars (groupArgs s g) (o.grp g)).2.zeta }

/-- Line 165 of `update`: the threshold snap
`z[np.abs(beta[z]) < thr] = 0`, applied to the full matrix. -/
def snapZ {G F K L : ℕ} [NeZero K] (s : NBinomModel G F K L) : NBinomModel G F K L :=
  { s with z := fun g f => if |s.beta (s.z g f)| < s.thr then 0 else s.z g f }

/-- Lines 167-170 of `update`: recompute `occ` from `z[1:]` (groups of
index at least 1), `iact = occ > 0`, `nact = sum(iact)`. -/
def updateOcc {G F K L : ℕ} (s : NBinomModel G F K L) : NBinomModel G F K L :=
  let occ1 : Fin K → ℕ :=
    fun k => (univ.filter (fun q : Fin G × Fin F => q.1.val ≠ 0 ∧ s.z q.1 q.2 = k)).card
  { s with
    occ := occ1
    iact := fun k => decide (0 < occ1 k)
    nact := (univ.filter (fun k : Fin K => 0 < occ1 k)).card }

/-- Line 173 of `update`: `eta = st.sample_eta_west(eta, nact, occ.sum())`. -/
def updateEta {G F K L : ℕ} (s : NBinomModel G F K L) (o : SweepOracle G F K L) :
    NBinomModel G F K L :=
  { s with eta := o.etaWest s.eta s.nact (∑ k : Fin K, s.occ k) }

/-- Line 176 of `update`: `lw, _ = st.sample_stick(occ, eta)`. -/
def updateLw {G F K L : ℕ} (s : NBinomModel G F K L) (o : SweepOracle G F K L) :
    NBinomModel G F K L :=
  { s with lw := o.stick s.occ s.eta }

/-- The pairs selected by `self.z > 0` in line 258 of `_update_hpars`. -/
def activeSet {G F K L : ℕ} (s : NBinomModel G F K L) : Finset (Fin G × Fin F) :=
  univ.filter (fun q => (s.z q.1 q.2).val ≠ 0)

/-- Line 259: `s1 = np.sum(beta)` over `beta = self.beta[self.z][self.z > 0]`. -/
def betaS1 {G F K L : ℕ} (s : NBinomModel G F K L) : ℚ :=
  ∑ q in activeSet s, s.beta (s.z q.1 q.2)

/-- Line 260: `s2 = np.sum(beta**2)` over the same selection. -/
def betaS2 {G F K L : ℕ} (s : NBinomModel G F K L) : ℚ :=
  ∑ q in activeSet s, (s.beta (s.z q.1 q.2)) ^ 2

/-- Line 261: `n = beta.size`, the number of selected pairs. -/
def betaN {G F K L : ℕ} (s : NBinomModel G F K L) : ℕ :=
  (activeSet s).card

/-- `_update_hpars` (source lines 243-262): redraw `(mu1, tau1)` and
`(mu2, tau2)` unconditionally from the sufficient statistics of
`log_phi` and `log_mu`; redraw `(m0, t0)` from the statistics of the
active effect observations only when more than 2 of them exist
(line 262), otherwise keep the old pair. -/
def _update_hpars {G F K L : ℕ} (s : NBinomModel G F K L) (o : SweepOracle G F K L) :
    NBinomModel G F K L :=
  let r1 := o.jphi (∑ f : Fin F, s.log_phi f) (∑ f : Fin F, (s.log_phi f) ^ 2) F
  let r2 := o.jmu (∑ f : Fin F, s.log_mu f) (∑ f : Fin F, (s.log_mu f) ^ 2) F
  let rb := if 2 < betaN s then o.jbeta (betaS1 s) (betaS2 s) (betaN s) else (s.m0, s.t0)
  { s with mu1 := r1.1, tau1 := r1.2, mu2 := r2.1, tau2 := r2.2, m0 := rb.1, t0 := rb.2 }

/-- `NBinomModel.update` (source lines 139-179): one full sweep, composed
in source order: iteration counter, `_update_phi`, `_update_mu`,
`_update_beta`, group dispatch, threshold snap, occupancy refresh,
concentration, weights, hyperparameters. -/
def NBinomModel.update {G F K L : ℕ} [NeZero K] (s : NBinomModel G F K L)
    (o : SweepOracle G F K L) : NBinomModel G F K L :=
  _update_hpars
    (updateLw
      (updateEta
        (updateOcc
          (snapZ
            (updateGroups
              (_update_beta (_update_mu (_update_phi { s with iter := s.iter + 1 } o) o) o)
              o)))
        o)
      o)
    o

/-- The states the sampler can be in: the freshly constructed state
(for any data-derived parameters and any random draws) and anything
obtained from a reachable state by one `update` sweep (for any draws
and any Metropolis outcomes). -/
inductive Reachable {G F K L : ℕ} [NeZero K] [NeZero L] : NBinomModel G F K L → Prop
  | init (p : InitParams) (o : InitOracle G F K L) : Reachable (NBinomModel.init p o)
  | step {s : NBinomModel G F K L} (o : SweepOracle G F K L) :
      Reachable s → Reachable (NBinomModel.update s o)


/-- The value of `beta` after `_update_beta` inside a sweep: clusters
accepted by the comparison of line 236 or inactive (line 240) take the
pinned proposal of line 224, the rest keep their value. -/
def betaNew {G F K L : ℕ} (s : NBinomModel G F K L) (o : SweepOracle G F K L) :
    Fin K → ℚ :=
  fun k =>
    if o.betaAcc k || !(s.iact k) then (if k.val = 0 then 0 else o.betaProp k)
    else s.beta k

/-- The combined-cluster matrix right after the group dispatch of
lines 152-163, before the snap of line 165: row 0 keeps its previous
value, every other row is the returned `c[d]`. -/
def zPre {G F K L : ℕ} [NeZero K] (s : NBinomModel G F K L) (o : SweepOracle G F K L) :
    Fin G → Fin F → Fin K :=
  fun g => if g.val = 0 then s.z g
    else (_update_group_vars (groupArgs s g) (o.grp g)).2.z

/-- The combined-cluster matrix at the end of a sweep: `zPre` with the
snap of line 165 applied under the post-`_update_beta` effects. -/
def zNew {G F K L : ℕ} [NeZero K] (s : NBinomModel G F K L) (o : SweepOracle G F K L) :
    Fin G → Fin F → Fin K :=
  fun g f => if |betaNew s o (zPre s o g f)| < s.thr then 0 else zPre s o g f

/-- The occupancy count asserted by the spec for step 7 of a sweep:
pairs over every group, the reference group included.  This follows the
spec wording and is compared against the `occ` the code stores, which
counts `z[1:]` only (line 168). -/
def occAll {G F K L : ℕ} (s : NBinomModel G F K L) (k : Fin K) : ℕ :=
  (univ.filter (fun q : Fin G × Fin F => s.z q.1 q.2 = k)).card

/-- Concrete constructor parameters with the default threshold
`thr = 0.3` (line 21), used by the witnesses below. -/
def p0 : InitParams :=
  { mu1 := 0, tau1 := 1, mu2 := 0, tau2 := 1, m0 := 0, t0 := 1
    eta0 := 0, zeta0 := 0, lw0 := 0, lu0 := 0, thr := 3/10 }

/-- Concrete construction draws for a one-group, one-feature model with
both truncation levels equal to 1. -/
def oi1 : InitOracle 1 1 1 1 :=
  { log_phi := fun _ => 0, log_mu := fun _ => 0, betaDraw := fun _ => 1
    cDraw := fun _ _ => 0, dDraw := fun _ _ => 0 }

/-- A concrete freshly constructed model state. -/
def s1w : NBinomModel 1 1 1 1 := NBinomModel.init p0 oi1

/-- Concrete construction draws for a two-group, one-feature model with
both truncation levels equal to 1. -/
def oi4 : InitOracle 2 1 1 1 :=
  { log_phi := fun _ => 0, log_mu := fun _ => 0, betaDraw := fun _ => 0
    cDraw := fun _ _ => 0, dDraw := fun _ _ => 0 }

/-- Concrete constructor parameters with an integral threshold, chosen
so that the state evaluates by kernel reduction. -/
def p4 : InitParams :=
  { mu1 := 0, tau1 := 1, mu2 := 0, tau2 := 1, m0 := 0, t0 := 1
    eta0 := 0, zeta0 := 0, lw0 := 0, lu0 := 0, thr := 1 }

/-- A concrete freshly constructed two-group model state. -/
def s4 : NBinomModel 2 1 1 1 := NBinomModel.init p4 oi4

/-- A concrete group-call oracle in which every Metropolis comparison
rejects and the external samplers return their current input or zero. -/
def og0 : GroupOracle 1 1 1 :=
  { dProp := fun _ => 0, dAcc := fun _ => false, cProp := fun _ => 0
    cAcc := fun _ => false, etaWest := fun x _ _ => x, stick := fun _ _ _ => 0 }

/-- A concrete sweep oracle for the two-group model in which every
Metropolis comparison rejects. -/
def o4 : SweepOracle 2 1 1 1 :=
  { phiProp := fun _ => 0, phiAcc := fun _ => false
    muProp := fun _ => 0, muAcc := fun _ => false
    betaProp := fun _ => 0, betaAcc := fun _ => false
    grp := fun _ => og0
    etaWest := fun x _ _ => x, stick := fun _ _ _ => 0
    jphi := fun _ _ _ => (0, 1), jmu := fun _ _ _ => (0, 1)
    jbeta := fun _ _ _ => (0, 1) }

/-- A concrete model state with two outer clusters, both inactive. -/
def s9 : NBinomModel 1 1 2 1 :=
  { iter := 0, mu1 := 0, tau1 := 1, mu2 := 0, tau2 := 1, m0 := 0, t0 := 1
    log_phi := fun _ => 0, log_mu := fun _ => 0, eta := 0, zeta := fun _ => 0
    lw := fun _ => 0, lu := fun _ _ => 0, beta := fun _ => 0
    c := fun _ _ => 0, d := fun _ _ => 0, z := fun _ _ => 0, thr := 3/10
    occ := fun _ => 0, iact := fun _ => false, nact := 0 }

/-- A concrete sweep oracle for `s9` whose effect proposal is 5 at every
cluster and whose Metropolis comparisons all reject. -/
def o9 : SweepOracle 1 1 2 1 :=
  { phiProp := fun _ => 0, phiAcc := fun _ => false
    muProp := fun _ => 0, muAcc := fun _ => false
    betaProp := fun _ => 5, betaAcc := fun _ => false
    grp := fun _ =>
      { dProp := fun _ => 0, dAcc := fun _ => false, cProp := fun _ => 0
        cAcc := fun _ => false, etaWest := fun x _ _ => x, stick := fun _ _ _ => 0 }
    etaWest := fun x _ _ => x, stick := fun _ _ _ => 0
    jphi := fun _ _ _ => (0, 1), jmu := fun _ _ _ => (0, 1)
    jbeta := fun _ _ _ => (0, 1) }

/-- A concrete group store: one feature, two outer clusters, two slots,
all indicators at 0. -/
def gs2 : GroupState 1 2 2 :=
  { c := fun _ => 0, d := fun _ => 0, lu := fun _ => 0, zeta := 0 }

/-- A concrete group-call oracle whose inner-indicator proposal is slot 1
and whose d-comparison accepts (an outcome of positive probability, since
the uniform draw of line 354 beats `exp(loglik_ - loglik) > 0` with
positive probability whatever the likelihood values are). -/
def og2 : GroupOracle 1 2 2 :=
  { dProp := fun _ => 1, dAcc := fun _ => true, cProp := fun _ => 0
    cAcc := fun _ => false, etaWest := fun x _ _ => x, stick := fun _ _ _ => 0 }

/-- Count data of one group as `_compute_loglik` consumes it
(lines 324-333): the counts block and the library sizes, with `F`
features and `S` sample columns. -/
structure LikData (F S : ℕ) where
  counts : Fin F → Fin S → ℝ
  libs : Fin S → ℝ

/-- Modelled from the spec: `dgeclust.stats.nbinomln` is imported on
line 11 but its module is not among the sources.  Per the spec
(section 4.1) it returns the negative-binomial log-probability of each
count under shape `a` and success probability `p`; this is the standard
log-pmf written with the Gamma function. -/
noncomputable def nbinomln (x a p : ℝ) : ℝ :=
  Real.log (Real.Gamma (x + a)) - Real.log (Real.Gamma a) - Real.log (Real.Gamma (x + 1))
    + a * Real.log p + x * Real.log (1 - p)

/-- `_compute_loglik` (source lines 320-336): shape `alpha = 1/exp(log_phi)`,
success probability `p = alpha/(alpha + lib_sizes * exp(log_mu + beta))`,
then `st.nbinomln(counts, alpha, p)`.  The `np.repeat(beta, nreplicas,
axis=1)` of line 329 is embedded by passing the effect value per
(feature, sample column) directly as `betaRep`. -/
noncomputable def _compute_loglik {F S : ℕ} (dat : LikData F S)
    (log_phi log_mu : Fin F → ℝ) (betaRep : Fin F → Fin S → ℝ)
    (f : Fin F) (j : Fin S) : ℝ :=
  let a := 1 / Real.exp (log_phi f)
  let p := a / (a + dat.libs j * Real.exp (log_mu f + betaRep f j))
  nbinomln (dat.counts f j) a p

/-- The effect matrix `self.beta[self.z.T]` of lines 187-188 after the
replicate expansion of line 329: `grp` maps each sample column to its
group, encoding `nreplicas`. -/
def betaRepOf {G F K S : ℕ} (z : Fin G → Fin F → Fin K) (beta : Fin K → ℝ)
    (grp : Fin S → Fin G) : Fin F → Fin S → ℝ :=
  fun f j => beta (z (grp j) f)

/-- The `.sum(-1)` of lines 187-188 and 199-200: total log-likelihood of
one feature over all samples (all groups and replicates). -/
noncomputable def loglikSum {F S : ℕ} (dat : LikData F S)
    (log_phi log_mu : Fin F → ℝ) (betaRep : Fin F → Fin S → ℝ) (f : Fin F) : ℝ :=
  ∑ j : Fin S, _compute_loglik dat log_phi log_mu betaRep f j

/-- The Metropolis acceptance condition of line 190 for `_update_phi`:
the proposal `log_phiP` is scored against the current `log_phi` with
`log_mu` and the effect matrix held fixed, and accepted when its total
log-likelihood strictly exceeds the current one or when the uniform draw
`u` falls below the likelihood ratio. -/
def phiAccept {F S : ℕ} (dat : LikData F S) (log_phi log_phiP log_mu : Fin F → ℝ)
    (betaRep : Fin F → Fin S → ℝ) (u : Fin F → ℝ) (f : Fin F) : Prop :=
  loglikSum dat log_phiP log_mu betaRep f > loglikSum dat log_phi log_mu betaRep f ∨
    u f < Real.exp (loglikSum dat log_phiP log_mu betaRep f -
      loglikSum dat log_phi log_mu betaRep f)

/-- The Metropolis acceptance condition of line 202 for `_update_mu`:
symmetric to `phiAccept`, with `log_phi` and the effect matrix held
fixed. -/
def muAccept {F S : ℕ} (dat : LikData F S) (log_phi log_mu log_muP : Fin F → ℝ)
    (betaRep : Fin F → Fin S → ℝ) (v : Fin F → ℝ) (f : Fin F) : Prop :=
  loglikSum dat log_phi log_muP betaRep f > loglikSum dat log_phi log_mu betaRep f ∨
    v f < Real.exp (loglikSum dat log_phi log_muP betaRep f -
      loglikSum dat log_phi log_mu betaRep f)

/-- Line 191, `self.log_phi[idxs] = log_phi_[idxs]`, as a relation on the
final array: accepted features take the fresh hyperprior draw `log_phiP`
(line 185), the rest keep their value. -/
def UpdatePhiSpec {F S : ℕ} (dat : LikData F S) (log_phi log_phiP log_mu : Fin F → ℝ)
    (betaRep : Fin F → Fin S → ℝ) (u : Fin F → ℝ) (out : Fin F → ℝ) : Prop :=
  ∀ f, (phiAccept dat log_phi log_phiP log_mu betaRep u f → out f = log_phiP f) ∧
    (¬ phiAccept dat log_phi log_phiP log_mu betaRep u f → out f = log_phi f)

/-- Line 203, `self.log_mu[idxs] = log_mu_[idxs]`, as a relation on the
final array. -/
def UpdateMuSpec {F S : ℕ} (dat : LikData F S) (log_phi log_mu log_muP : Fin F → ℝ)
    (betaRep : Fin F → Fin S → ℝ) (v : Fin F → ℝ) (out : Fin F → ℝ) : Prop :=
  ∀ f, (muAccept dat log_phi log_mu log_muP betaRep v f → out f = log_muP f) ∧
    (¬ muAccept dat log_phi log_mu log_muP betaRep v f → out f = log_mu f)

/-- Concrete one-sample count data for the Metropolis witness. -/
noncomputable def datW : LikData 1 1 := ⟨fun _ _ => 0, fun _ => 1⟩

/-- The constant-zero feature vector. -/
noncomputable def zeroF : Fin 1 → ℝ := fun _ => 0

/-- The constant-one feature vector. -/
noncomputable def oneF : Fin 1 → ℝ := fun _ => 1

/-- A trivial combined-cluster matrix for the Metropolis witness. -/
def zW : Fin 1 → Fin 1 → Fin 1 := fun _ _ => 0

/-- A trivial effect vector for the Metropolis witness. -/
noncomputable def bW : Fin 1 → ℝ := fun _ => 0

/-- The sample-to-group map of the Metropolis witness. -/
def gW : Fin 1 → Fin 1 := fun _ => 0

/-- The conjunction of structural invariants maintained by construction
and by every sweep: the snap identity for `z`, the pinned null effect
`beta 0 = 0`, and the degenerate reference row (`c`, `d`, `z` all zero
on group 0). -/
def StateInv {G F K L : ℕ} [NeZero K] [NeZero L] (s : NBinomModel G F K L) : Prop :=
  (∀ g f, s.z g f = if |s.beta (s.c g (s.d g f))| < s.thr then 0 else s.c g (s.d g f))
  ∧ s.beta 0 = 0
  ∧ (∀ g l, g.val = 0 → s.c g l = 0)
  ∧ (∀ g f, g.val = 0 → s.d g f = 0)
  ∧ (∀ g f, g.val = 0 → s.z g f = 0)

section UpdateProjections

variable {G F K L : ℕ} [NeZero K] (s : NBinomModel G F K L) (o : SweepOracle G F K L)

theorem update_iter : (s.update o).iter = s.iter + 1 := rfl

theorem update_thr : (s.update o).thr = s.thr := rfl

theorem update_log_phi :
    (s.update o).log_phi = fun f => if o.phiAcc f then o.phiProp f else s.log_phi f := rfl

theorem update_log_mu :
    (s.update o).log_mu = fun f => if o.muAcc f then o.muProp f else s.log_mu f := rfl

theorem update_beta_eq : (s.update o).beta = betaNew s o := rfl

theorem update_c_eq :
    (s.update o).c = fun g => if g.val = 0 then s.c g else
      (_update_group_vars (groupArgs s g) (o.grp g)).2.c := rfl

theorem update_d_eq :
    (s.update o).d = fun g => if g.val = 0 then s.d g else
      (_update_group_vars (groupArgs s g) (o.grp g)).2.d := rfl

theorem update_z_eq : (s.update o).z = zNew s o := rfl

theorem update_occ_eq :
    (s.update o).occ = fun k =>
      (univ.filter (fun q : Fin G × Fin F => q.1.val ≠ 0 ∧ zNew s o q.1 q.2 = k)).card := rfl

theorem update_iact_eq :
    (s.update o).iact = fun k => decide (0 < (s.update o).occ k) := rfl

theorem update_nact_eq :
    (s.update o).nact = (univ.filter (fun k : Fin K => 0 < (s.update o).occ k)).card := rfl

theorem update_m0_eq :
    ((s.update o).m0, (s.update o).t0) =
      if 2 < betaN (s.update o) then
        o.jbeta (betaS1 (s.update o)) (betaS2 (s.update o)) (betaN (s.update o))
      else (s.m0, s.t0) := rfl

/-- The returned combined-cluster row of a group call is the composition
of the returned pointer arrays (line 382 returns `c[d]`). -/
theorem groupResult_z (gs : GroupState F K L) (go : GroupOracle F K L) (f : Fin F) :
    (_update_group_vars gs go).2.z f =
      (_update_group_vars gs go).2.c ((_update_group_vars gs go).2.d f) := rfl

end UpdateProjections

section InitProjections

variable {G F K L : ℕ} [NeZero K] [NeZero L] (p : InitParams) (o : InitOracle G F K L)

theorem init_beta_eq :
    (NBinomModel.init p o).beta = fun k => if k.val = 0 then 0 else o.betaDraw k := rfl

theorem init_c_eq :
    (NBinomModel.init p o).c =
      fun g l => if g.val = 0 ∨ l.val = 0 then 0 else o.cDraw g l := rfl

theorem init_d_eq :
    (NBinomModel.init p o).d = fun g f => if g.val = 0 then 0 else o.dDraw g f := rfl

theorem init_thr_eq : (NBinomModel.init p o).thr = p.thr := rfl

theorem init_z_eq :
    (NBinomModel.init p o).z = fun g f =>
      if |(NBinomModel.init p o).beta
            ((NBinomModel.init p o).c g ((NBinomModel.init p o).d g f))| < p.thr
      then 0
      else (NBinomModel.init p o).c g ((NBinomModel.init p o).d g f) := rfl

theorem init_occ_eq :
    (NBinomModel.init p o).occ = fun k =>
      (univ.filter (fun q : Fin G × Fin F =>
        q.1.val ≠ 0 ∧ (NBinomModel.init p o).z q.1 q.2 = k)).card := rfl

end InitProjections

theorem inv_init {G F K L : ℕ} [NeZero K] [NeZero L] (p : InitParams)
    (o : InitOracle G F K L) : StateInv (NBinomModel.init p o) := by
  have hb : (NBinomModel.init p o).beta 0 = 0 := by
    rw [init_beta_eq]
    simp [Fin.val_zero']
  have hc : ∀ g l, (g : Fin G).val = 0 → (NBinomModel.init p o).c g l = 0 := by
    intro g l hg
    rw [init_c_eq]
    simp [hg]
  have hd : ∀ g f, (g : Fin G).val = 0 → (NBinomModel.init p o).d g f = 0 := by
    intro g f hg
    rw [init_d_eq]
    simp [hg]
  refine ⟨?_, hb, hc, hd, ?_⟩
  · intro g f
    rw [init_z_eq, init_thr_eq]
  · intro g f hg
    simp only [init_z_eq]
    rw [hc g _ hg, hb]
    simp

theorem betaNew_zero {G F K L : ℕ} [NeZero K] {s : NBinomModel G F K L}
    (o : SweepOracle G F K L) (h : s.beta 0 = 0) : betaNew s o 0 = 0 := by
  unfold betaNew
  rcases hb : (o.betaAcc 0 || !(s.iact 0)) with _ | _ <;> simp [hb, h, Fin.val_zero']

theorem inv_step {G F K L : ℕ} [NeZero K] [NeZero L] {s : NBinomModel G F K L}
    (o : SweepOracle G F K L) (h : StateInv s) : StateInv (s.update o) := by
  obtain ⟨h1, h2, h3, h4, h5⟩ := h
  have hb0 : betaNew s o 0 = 0 := betaNew_zero o h2
  have hzpre0 : ∀ g f, (g : Fin G).val = 0 → zPre s o g f = 0 := by
    intro g f hg
    unfold zPre
    simp only [hg, if_pos rfl]
    exact h5 g f hg
  have hznew0 : ∀ g f, (g : Fin G).val = 0 → zNew s o g f = 0 := by
    intro g f hg
    unfold zNew
    rw [hzpre0 g f hg, hb0]
    simp
  refine ⟨?_, ?_, ?_, ?_, ?_⟩
  · intro g f
    rw [update_z_eq, update_c_eq, update_d_eq, update_beta_eq, update_thr]
    by_cases hg : g.val = 0
    · rw [hznew0 g f hg]
      simp only [hg, eq_self_iff_true, if_true]
      rw [h3 g _ hg, hb0]
      simp
    · unfold zNew zPre
      simp only [hg, if_false]
      rw [groupResult_z]
  · rw [update_beta_eq]; exact hb0
  · intro g l hg
    rw [update_c_eq]
    simp only [hg, if_pos rfl]
    exact h3 g l hg
  · intro g f hg
    rw [update_d_eq]
    simp only [hg, if_pos rfl]
    exact h4 g f hg
  · intro g f hg
    rw [update_z_eq]
    exact hznew0 g f hg

/-- Every reachable state satisfies the structural invariant. -/
theorem reachable_inv {G F K L : ℕ} [NeZero K] [NeZero L] {s : NBinomModel G F K L}
    (h : Reachable s) : StateInv s := by
  induction h with
  | init p o => exact inv_init p o
  | step o hs ih => exact inv_step o ih

/-- C1: in the state reached at construction and at the end of every
update sweep, the combined-cluster matrix is exactly the composition of
the indicator arrays followed by the threshold snap: `z g f` equals
`c g (d g f)` when the resolved effect magnitude reaches `thr`, and 0
otherwise. -/
theorem combined_cluster_consistent {G F K L : ℕ} [NeZero K] [NeZero L]
    {s : NBinomModel G F K L} (h : Reachable s) (g : Fin G) (f : Fin F) :
    s.z g f = if s.thr ≤ |s.beta (s.c g (s.d g f))| then s.c g (s.d g f) else 0 := by
  rw [(reachable_inv h).1 g f]
  rcases lt_or_le |s.beta (s.c g (s.d g f))| s.thr with hlt | hle
  · rw [if_pos hlt, if_neg (not_le.mpr hlt)]
  · rw [if_neg (not_lt.mpr hle), if_pos hle]

theorem combined_cluster_consistent_witness :
    Reachable s1w ∧
      s1w.z 0 0 =
        if s1w.thr ≤ |s1w.beta (s1w.c 0 (s1w.d 0 0))| then s1w.c 0 (s1w.d 0 0) else 0 :=
  ⟨Reachable.init p0 oi1, combined_cluster_consistent (Reachable.init p0 oi1) 0 0⟩

/-- C3: in every reachable state the reference group stays entirely
null: its inner indicators, outer pointers and combined clusters are all
zero. -/
theorem reference_group_stays_null {G F K L : ℕ} [NeZero K] [NeZero L]
    {s : NBinomModel G F K L} (h : Reachable s) (g : Fin G) (hg : g.val = 0)
    (f : Fin F) (l : Fin L) :
    s.d g f = 0 ∧ s.c g l = 0 ∧ s.z g f = 0 :=
  ⟨(reachable_inv h).2.2.2.1 g f hg, (reachable_inv h).2.2.1 g l hg,
    (reachable_inv h).2.2.2.2 g f hg⟩

theorem reference_group_stays_null_witness :
    Reachable s1w ∧ (0 : Fin 1).val = 0 ∧
      (s1w.d 0 0 = 0 ∧ s1w.c 0 0 = 0 ∧ s1w.z 0 0 = 0) :=
  ⟨Reachable.init p0 oi1, rfl,
    reference_group_stays_null (Reachable.init p0 oi1) 0 rfl 0 0⟩

/-- C6: the null-cluster effect is pinned: `beta 0 = 0` in every
reachable state (set at line 54, preserved because every proposal of
line 224 pins index 0 and lines 237 and 240 only ever write proposal
values there). -/
theorem cluster_effect_zero_pinned {G F K L : ℕ} [NeZero K] [NeZero L]
    {s : NBinomModel G F K L} (h : Reachable s) : s.beta 0 = 0 :=
  (reachable_inv h).2.1

theorem cluster_effect_zero_pinned_witness : Reachable s1w ∧ s1w.beta 0 = 0 :=
  ⟨Reachable.init p0 oi1, cluster_effect_zero_pinned (Reachable.init p0 oi1)⟩

/-- C9: in `_update_beta`, every cluster inactive at the time of the
call finishes with the freshly drawn proposal regardless of the
Metropolis outcome (line 240), and that proposal is 0 at cluster 0
(line 224); the sweep makes no later write to `beta`, so the same value
stands at the end of `update`. -/
theorem inactive_clusters_force_resampled {G F K L : ℕ} [NeZero K]
    (s : NBinomModel G F K L) (o : SweepOracle G F K L) (k : Fin K)
    (h : s.iact k = false) :
    (_update_beta s o).beta k = (if k.val = 0 then 0 else o.betaProp k) ∧
    (s.update o).beta k = (if k.val = 0 then 0 else o.betaProp k) := by
  constructor
  · show (if o.betaAcc k || !(s.iact k) then (if k.val = 0 then 0 else o.betaProp k)
      else s.beta k) = _
    rw [h]
    simp
  · rw [update_beta_eq]
    unfold betaNew
    rw [h]
    simp

theorem inactive_clusters_force_resampled_witness :
    s9.iact 1 = false ∧
      ((_update_beta s9 o9).beta 1 = (if (1 : Fin 2).val = 0 then 0 else o9.betaProp 1) ∧
       (NBinomModel.update s9 o9).beta 1 = (if (1 : Fin 2).val = 0 then 0 else o9.betaProp 1)) :=
  ⟨rfl, inactive_clusters_force_resampled s9 o9 1 rfl⟩

/-- C2, counterexample: `_update_group_vars` does modify its input
arrays.  At the concrete store `gs2` with the (positive-probability)
comparison outcome recorded in `og2`, the in-place write of line 355
leaves the caller-visible inner-indicator array changed. -/
theorem group_update_mutates_inputs :
    (_update_group_vars gs2 og2).1.d 0 ≠ gs2.d 0 := by decide

/-- C2, amended: the only in-place writes of `_update_group_vars` are to
the calling group's own `c` and `d` rows (lines 355, 372-373), which are
the very arrays it returns; the `lu` row and `zeta` cell are read but
never written (lines 376-382 rebind local names), and the global arrays
and count data enter only read-only through the likelihood terms. -/
theorem group_update_store_frame {F K L : ℕ} [NeZero K]
    (gs : GroupState F K L) (o : GroupOracle F K L) :
    (_update_group_vars gs o).1.lu = gs.lu ∧
    (_update_group_vars gs o).1.zeta = gs.zeta ∧
    (_update_group_vars gs o).1.c = (_update_group_vars gs o).2.c ∧
    (_update_group_vars gs o).1.d = (_update_group_vars gs o).2.d :=
  ⟨rfl, rfl, rfl, rfl⟩

/-- C8: `_update_hpars` redraws `(mu1, tau1)` and `(mu2, tau2)` from the
sufficient statistics of the current `log_phi` and `log_mu`
unconditionally every sweep (lines 247-255), and redraws `(m0, t0)` from
the statistics of the active effect observations exactly when more than
two of them exist, keeping the old pair otherwise (line 262). -/
theorem hpars_update_rule {G F K L : ℕ} [NeZero K]
    (s : NBinomModel G F K L) (o : SweepOracle G F K L) :
    ((s.update o).mu1, (s.update o).tau1) =
        o.jphi (∑ f : Fin F, (s.update o).log_phi f)
          (∑ f : Fin F, ((s.update o).log_phi f) ^ 2) F ∧
    ((s.update o).mu2, (s.update o).tau2) =
        o.jmu (∑ f : Fin F, (s.update o).log_mu f)
          (∑ f : Fin F, ((s.update o).log_mu f) ^ 2) F ∧
    ((s.update o).m0, (s.update o).t0) =
        (if 2 < betaN (s.update o) then
          o.jbeta (betaS1 (s.update o)) (betaS2 (s.update o)) (betaN (s.update o))
        else (s.m0, s.t0)) :=
  ⟨rfl, rfl, update_m0_eq s o⟩

/-- Fibers of the active-pair set over a nonzero cluster id: the
activity constraint is subsumed by the fiber constraint. -/
theorem active_fiber_eq {G F K L : ℕ} (s : NBinomModel G F K L) {k : Fin K}
    (hk : k.val ≠ 0) :
    (activeSet s).filter (fun q => s.z q.1 q.2 = k)
      = univ.filter (fun q : Fin G × Fin F => s.z q.1 q.2 = k) := by
  unfold activeSet
  ext q
  simp only [Finset.filter_filter, Finset.mem_filter, Finset.mem_univ, true_and]
  constructor
  · rintro ⟨h1, h2⟩
    exact h2
  · intro h2
    refine ⟨?_, h2⟩
    rw [h2]
    exact hk

/-- Summing a function of the resolved cluster over the active pairs
equals the occupancy-weighted sum over the nonzero clusters. -/
theorem sum_active_fiber {G F K L : ℕ} (s : NBinomModel G F K L) (fn : Fin K → ℚ) :
    ∑ q in activeSet s, fn (s.z q.1 q.2)
      = ∑ k in univ.filter (fun k : Fin K => k.val ≠ 0), (occAll s k : ℚ) * fn k := by
  have hmap : ∀ q ∈ activeSet s,
      s.z q.1 q.2 ∈ univ.filter (fun k : Fin K => k.val ≠ 0) := by
    intro q hq
    rw [Finset.mem_filter]
    exact ⟨Finset.mem_univ _, (Finset.mem_filter.mp hq).2⟩
  rw [← Finset.sum_fiberwise_of_maps_to' hmap fn]
  apply Finset.sum_congr rfl
  intro k hk
  rw [active_fiber_eq s (Finset.mem_filter.mp hk).2, Finset.sum_const, nsmul_eq_mul]
  rfl

/-- The number of active pairs equals the sum of the all-groups
occupancies of the nonzero clusters. -/
theorem card_active_fiber {G F K L : ℕ} (s : NBinomModel G F K L) :
    betaN s = ∑ k in univ.filter (fun k : Fin K => k.val ≠ 0), occAll s k := by
  have hmap : ∀ q ∈ activeSet s,
      s.z q.1 q.2 ∈ univ.filter (fun k : Fin K => k.val ≠ 0) := by
    intro q hq
    rw [Finset.mem_filter]
    exact ⟨Finset.mem_univ _, (Finset.mem_filter.mp hq).2⟩
  unfold betaN
  rw [Finset.card_eq_sum_card_fiberwise hmap]
  apply Finset.sum_congr rfl
  intro k hk
  rw [active_fiber_eq s (Finset.mem_filter.mp hk).2]
  rfl

/-- C10: the sufficient statistics fed to the effect-hyperparameter draw
are taken per (group, feature) pair with nonzero combined cluster, so
the occupied clusters are weighted by their all-groups occupancy; the
sweep applies the threshold snap before `_update_hpars`, so every effect
value entering the statistics has magnitude at least `thr`; and the
`(m0, t0)` pair is redrawn from exactly these statistics when more than
two active observations exist. -/
theorem hpars_stats_occupancy_weighted {G F K L : ℕ} [NeZero K]
    (s : NBinomModel G F K L) (o : SweepOracle G F K L) :
    betaS1 (s.update o) =
        ∑ k in univ.filter (fun k : Fin K => k.val ≠ 0),
          (occAll (s.update o) k : ℚ) * (s.update o).beta k ∧
    betaS2 (s.update o) =
        ∑ k in univ.filter (fun k : Fin K => k.val ≠ 0),
          (occAll (s.update o) k : ℚ) * ((s.update o).beta k) ^ 2 ∧
    betaN (s.update o) =
        ∑ k in univ.filter (fun k : Fin K => k.val ≠ 0), occAll (s.update o) k ∧
    (∀ g f, ((s.update o).z g f).val = 0 ∨
      (s.update o).thr ≤ |(s.update o).beta ((s.update o).z g f)|) ∧
    ((s.update o).m0, (s.update o).t0) =
        (if 2 < betaN (s.update o) then
          o.jbeta (betaS1 (s.update o)) (betaS2 (s.update o)) (betaN (s.update o))
        else (s.m0, s.t0)) := by
  refine ⟨sum_active_fiber (s.update o) ((s.update o).beta),
    sum_active_fiber (s.update o) (fun k => ((s.update o).beta k) ^ 2),
    card_active_fiber (s.update o), ?_, update_m0_eq s o⟩
  intro g f
  rw [update_z_eq, update_beta_eq, update_thr]
  unfold zNew
  by_cases hc : |betaNew s o (zPre s o g f)| < s.thr
  · left
    rw [if_pos hc]
    exact Fin.val_zero' K
  · right
    rw [if_neg hc]
    exact not_lt.mp hc

/-- C4, counterexample: at a concrete reachable two-group state after
one sweep, the occupancy the code stores differs from the pair count
over every group including the reference group, because line 168 counts
`z[1:]` only. -/
theorem occupancy_counts_all_groups_refuted :
    (NBinomModel.update s4 o4).occ 0 ≠ occAll (NBinomModel.update s4 o4) 0 := by
  decide

set_option maxHeartbeats 1600000 in
/-- C4, amended: step 7 recomputes `occ` from the non-reference rows of
the combined-cluster matrix only, with `iact = occ > 0` and
`nact = sum(iact)`; since the reference row is identically zero in
reachable states, the all-groups count of the spec coincides with the
stored `occ` at every nonzero cluster and exceeds it by exactly the
feature count at cluster 0. -/
theorem occupancy_refresh_amended {G F K L : ℕ} [NeZero G] [NeZero K] [NeZero L]
    {s : NBinomModel G F K L} (h : Reachable s) (o : SweepOracle G F K L) (k : Fin K) :
    (s.update o).occ k =
        (univ.filter (fun q : Fin G × Fin F =>
          q.1.val ≠ 0 ∧ (s.update o).z q.1 q.2 = k)).card ∧
    (s.update o).iact k = decide (0 < (s.update o).occ k) ∧
    (s.update o).nact = (univ.filter (fun j : Fin K => 0 < (s.update o).occ j)).card ∧
    occAll (s.update o) k = (s.update o).occ k + (if k.val = 0 then F else 0) := by
  have ht := reachable_inv (h.step o)
  have hz0 : ∀ g f, (g : Fin G).val = 0 → (s.update o).z g f = 0 := ht.2.2.2.2
  refine ⟨rfl, rfl, rfl, ?_⟩
  by_cases hk : k.val = 0
  · rw [if_pos hk]
    have hsplit :
        ((univ.filter (fun q : Fin G × Fin F => (s.update o).z q.1 q.2 = k)).filter
            (fun q => q.1.val ≠ 0)).card
          + ((univ.filter (fun q : Fin G × Fin F => (s.update o).z q.1 q.2 = k)).filter
            (fun q => ¬ q.1.val ≠ 0)).card
          = (univ.filter (fun q : Fin G × Fin F => (s.update o).z q.1 q.2 = k)).card :=
      Finset.filter_card_add_filter_neg_card_eq_card
        (fun q : Fin G × Fin F => q.1.val ≠ 0)
    have hpiece1 :
        (univ.filter (fun q : Fin G × Fin F => (s.update o).z q.1 q.2 = k)).filter
            (fun q => q.1.val ≠ 0)
          = univ.filter (fun q : Fin G × Fin F =>
              q.1.val ≠ 0 ∧ (s.update o).z q.1 q.2 = k) := by
      ext q
      simp only [Finset.filter_filter, Finset.mem_filter, Finset.mem_univ, true_and]
      exact and_comm
    have hpiece2 :
        (univ.filter (fun q : Fin G × Fin F => (s.update o).z q.1 q.2 = k)).filter
            (fun q => ¬ q.1.val ≠ 0)
          = univ.filter (fun q : Fin G × Fin F => q.1.val = 0) := by
      ext q
      simp only [Finset.filter_filter, Finset.mem_filter, Finset.mem_univ, true_and,
        not_not]
      constructor
      · rintro ⟨hzq, h0⟩
        exact h0
      · intro h0
        refine ⟨?_, h0⟩
        rw [hz0 q.1 q.2 h0]
        apply Fin.ext
        rw [Fin.val_zero']
        exact hk.symm
    have hF : (univ.filter (fun q : Fin G × Fin F => q.1.val = 0)).card = F := by
      have hprod : univ.filter (fun q : Fin G × Fin F => q.1.val = 0)
          = {(0 : Fin G)} ×ˢ (univ : Finset (Fin F)) := by
        ext q
        simp only [Finset.mem_filter, Finset.mem_univ, true_and, and_true,
          Finset.mem_product, Finset.mem_singleton]
        rw [Fin.ext_iff, Fin.val_zero']
      rw [hprod, Finset.card_product, Finset.card_singleton, Finset.card_univ,
        Fintype.card_fin, one_mul]
    show occAll (s.update o) k = (s.update o).occ k + F
    unfold occAll
    rw [← hsplit, hpiece1, hpiece2, hF]
    rfl
  · rw [if_neg hk, Nat.add_zero]
    have hEq : univ.filter (fun q : Fin G × Fin F => (s.update o).z q.1 q.2 = k)
        = univ.filter (fun q : Fin G × Fin F =>
            q.1.val ≠ 0 ∧ (s.update o).z q.1 q.2 = k) := by
      ext q
      simp only [Finset.mem_filter, Finset.mem_univ, true_and]
      constructor
      · intro hzq
        refine ⟨fun h0 => hk ?_, hzq⟩
        have hzz := hz0 q.1 q.2 h0
        rw [hzz] at hzq
        rw [← hzq]
        exact Fin.val_zero' K
      · exact fun hq => hq.2
    unfold occAll
    rw [hEq]
    rfl

set_option maxHeartbeats 1600000 in
theorem occupancy_refresh_amended_witness :
    Reachable s4 ∧
      ((NBinomModel.update s4 o4).occ 0 =
          (univ.filter (fun q : Fin 2 × Fin 1 =>
            q.1.val ≠ 0 ∧ (NBinomModel.update s4 o4).z q.1 q.2 = 0)).card ∧
        (NBinomModel.update s4 o4).iact 0 =
          decide (0 < (NBinomModel.update s4 o4).occ 0) ∧
        (NBinomModel.update s4 o4).nact =
          (univ.filter (fun j : Fin 1 => 0 < (NBinomModel.update s4 o4).occ j)).card ∧
        occAll (NBinomModel.update s4 o4) 0 =
          (NBinomModel.update s4 o4).occ 0 + (if (0 : Fin 1).val = 0 then 1 else 0)) :=
  ⟨Reachable.init p4 oi4, occupancy_refresh_amended (Reachable.init p4 oi4) o4 0⟩

/-- C5: in `_update_phi` (and symmetrically `_update_mu`), each feature
is accepted exactly when the total log-likelihood of the fresh proposal,
summed over all samples, strictly exceeds the current one, or when the
uniform draw falls below `exp(loglik_ - loglik)`; rejected features keep
their current value, and the comparison holds `log_mu` (resp. `log_phi`)
and the resolved cluster effects fixed: both sums use the same `log_mu`
and the same effect matrix `betaRepOf z beta grp`. -/
theorem metropolis_phi_mu_rule {G F K S : ℕ} (dat : LikData F S)
    (z : Fin G → Fin F → Fin K) (beta : Fin K → ℝ) (grp : Fin S → Fin G)
    (log_phi log_phiP log_mu log_muP u v outPhi outMu : Fin F → ℝ)
    (hphi : UpdatePhiSpec dat log_phi log_phiP log_mu (betaRepOf z beta grp) u outPhi)
    (hmu : UpdateMuSpec dat log_phi log_mu log_muP (betaRepOf z beta grp) v outMu)
    (f : Fin F) :
    (phiAccept dat log_phi log_phiP log_mu (betaRepOf z beta grp) u f ↔
      (loglikSum dat log_phiP log_mu (betaRepOf z beta grp) f >
          loglikSum dat log_phi log_mu (betaRepOf z beta grp) f ∨
        u f < Real.exp (loglikSum dat log_phiP log_mu (betaRepOf z beta grp) f -
          loglikSum dat log_phi log_mu (betaRepOf z beta grp) f))) ∧
    (phiAccept dat log_phi log_phiP log_mu (betaRepOf z beta grp) u f →
        outPhi f = log_phiP f) ∧
    (¬ phiAccept dat log_phi log_phiP log_mu (betaRepOf z beta grp) u f →
        outPhi f = log_phi f) ∧
    (outPhi f = log_phiP f ∨ outPhi f = log_phi f) ∧
    (muAccept dat log_phi log_mu log_muP (betaRepOf z beta grp) v f ↔
      (loglikSum dat log_phi log_muP (betaRepOf z beta grp) f >
          loglikSum dat log_phi log_mu (betaRepOf z beta grp) f ∨
        v f < Real.exp (loglikSum dat log_phi log_muP (betaRepOf z beta grp) f -
          loglikSum dat log_phi log_mu (betaRepOf z beta grp) f))) ∧
    (muAccept dat log_phi log_mu log_muP (betaRepOf z beta grp) v f →
        outMu f = log_muP f) ∧
    (¬ muAccept dat log_phi log_mu log_muP (betaRepOf z beta grp) v f →
        outMu f = log_mu f) ∧
    (outMu f = log_muP f ∨ outMu f = log_mu f) := by
  obtain ⟨ha, hr⟩ := hphi f
  obtain ⟨hb, hq⟩ := hmu f
  refine ⟨Iff.rfl, ha, hr, ?_, Iff.rfl, hb, hq, ?_⟩
  · by_cases hacc : phiAccept dat log_phi log_phiP log_mu (betaRepOf z beta grp) u f
    · exact Or.inl (ha hacc)
    · exact Or.inr (hr hacc)
  · by_cases hacc : muAccept dat log_phi log_mu log_muP (betaRepOf z beta grp) v f
    · exact Or.inl (hb hacc)
    · exact Or.inr (hq hacc)

theorem metropolis_phi_mu_rule_witness :
    UpdatePhiSpec datW zeroF zeroF zeroF (betaRepOf zW bW gW) oneF zeroF ∧
    UpdateMuSpec datW zeroF zeroF zeroF (betaRepOf zW bW gW) oneF zeroF ∧
    (zeroF 0 = zeroF 0 ∨ zeroF 0 = zeroF 0) := by
  have hp : UpdatePhiSpec datW zeroF zeroF zeroF (betaRepOf zW bW gW) oneF zeroF :=
    fun f => ⟨fun _ => rfl, fun _ => rfl⟩
  have hm : UpdateMuSpec datW zeroF zeroF zeroF (betaRepOf zW bW gW) oneF zeroF :=
    fun f => ⟨fun _ => rfl, fun _ => rfl⟩
  exact ⟨hp, hm,
    (metropolis_phi_mu_rule datW zW bW gW zeroF zeroF zeroF zeroF oneF oneF zeroF zeroF
      hp hm 0).2.2.2.1⟩

theorem group_update_store_frame_witness :
    (_update_group_vars gs2 og2).1.lu = gs2.lu ∧
    (_update_group_vars gs2 og2).1.zeta = gs2.zeta ∧
    (_update_group_vars gs2 og2).1.c = (_update_group_vars gs2 og2).2.c ∧
    (_update_group_vars gs2 og2).1.d = (_update_group_vars gs2 og2).2.d :=
  group_update_store_frame gs2 og2

theorem hpars_update_rule_witness :
    ((NBinomModel.update s9 o9).mu1, (NBinomModel.update s9 o9).tau1) =
      o9.jphi (∑ f : Fin 1, (NBinomModel.update s9 o9).log_phi f)
        (∑ f : Fin 1, ((NBinomModel.update s9 o9).log_phi f) ^ 2) 1 ∧
    ((NBinomModel.update s9 o9).m0, (NBinomModel.update s9 o9).t0) =
      (if 2 < betaN (NBinomModel.update s9 o9) then
        o9.jbeta (betaS1 (NBinomModel.update s9 o9)) (betaS2 (NBinomModel.update s9 o9))
          (betaN (NBinomModel.update s9 o9))
      else (s9.m0, s9.t0)) :=
  ⟨(hpars_update_rule s9 o9).1, (hpars_update_rule s9 o9).2.2⟩

theorem hpars_stats_occupancy_weighted_witness :
    betaS1 (NBinomModel.update s9 o9) =
        ∑ k in univ.filter (fun k : Fin 2 => k.val ≠ 0),
          (occAll (NBinomModel.update s9 o9) k : ℚ) * (NBinomModel.update s9 o9).beta k ∧
    (((NBinomModel.update s9 o9).z 0 0).val = 0 ∨
      (NBinomModel.update s9 o9).thr ≤
        |(NBinomModel.update s9 o9).beta ((NBinomModel.update s9 o9).z 0 0)|) :=
  ⟨(hpars_stats_occupancy_weighted s9 o9).1,
    (hpars_stats_occupancy_weighted s9 o9).2.2.2.1 0 0⟩
